/-
  Verification of the structure-extraction core of the PDF-extractor-to-JSON
  repository (src/extraction.py), as a shallow embedding in Lean 4.

  Strings are modelled as lists of characters (Python string indices are
  codepoint indices).  The regular expressions the program builds are of a
  very restricted shape -- case-insensitive literals, "." (any character but
  newline, from unescaped interpolated numbers) and "\s*" (from
  `_prepare_regex`) -- so they are embedded as lists of `RElem` together with
  a backtracking matcher `reMatch` that mirrors the greedy, leftmost
  semantics of Python's `re.search`.  `\s` and `str.strip` are modelled over
  ASCII whitespace; `(?i)` is modelled by `pyLower`, which lowercases the
  ASCII and Cyrillic ranges (the only alphabets occurring in the program).
-/
import Mathlib

namespace PDFX

abbrev Str := List Char

/-- ASCII fragment of Python's regex class `\s` and of `str.strip`. -/
def pyIsSpace (c : Char) : Bool :=
  c = ' ' || c = '\t' || c = '\n' || c = '\r' || c = '\x0b' || c = '\x0c'

/-- Lowercasing as used by `re.IGNORECASE`, restricted to the ASCII and
Cyrillic letters that occur in the program. -/
def pyLower (c : Char) : Char :=
  if 'A' ≤ c && c ≤ 'Z' then Char.ofNat (c.toNat + 32)
  else if 0x410 ≤ c.toNat && c.toNat ≤ 0x42F then Char.ofNat (c.toNat + 0x20)
  else if c.toNat = 0x401 then Char.ofNat 0x451
  else c

/-- Case-insensitive comparison of a pattern character with a text character. -/
def charMatch (p c : Char) : Bool := pyLower p = pyLower c

def isDigitC (c : Char) : Bool := c.isDigit

/-- Truthiness of `s.strip()`: `s` contains some non-whitespace character. -/
def hasNonWs (s : Str) : Bool := s.any (fun c => !pyIsSpace c)

/-- Python `str.strip()`. -/
def pyStrip (s : Str) : Str :=
  ((s.dropWhile pyIsSpace).reverse.dropWhile pyIsSpace).reverse

/-- `PDFProcessor._clean_text` (on a present string): strip whitespace. -/
def cleanText (s : Str) : Str := pyStrip s

/-- Python slice `s[a:b]` for natural `a`, `b` (clamping, empty when `b ≤ a`). -/
def pySlice (s : Str) (a b : Nat) : Str := (s.drop a).take (b - a)

/-! ## The regex fragment built by the program -/

/-- One element of the compiled patterns: a (case-insensitive) literal
character, `.` (any character except newline), or `\s*`. -/
inductive RElem where
  | lit (c : Char)
  | anyChar
  | wsStar
deriving DecidableEq

/-- Try the continuation on each candidate suffix in order; first success wins. -/
def tryAll (f : Str → Option Str) : List Str → Option Str
  | [] => none
  | x :: r =>
      match f x with
      | some v => some v
      | none => tryAll f r

/-- The candidate remainders a greedy `\s*` leaves behind, longest consumed
run first (consume the maximal whitespace run, then backtrack one character
at a time down to consuming nothing). -/
def wsSuffixes (s : Str) : List Str :=
  ((List.range ((s.takeWhile pyIsSpace).length + 1)).reverse).map (fun j => s.drop j)

/-- Backtracking matcher: match the pattern against a prefix of the text,
returning the remaining suffix of the text on success.  `wsStar` is greedy
with backtracking, exactly as Python's `\s*`. -/
def reMatch : List RElem → Str → Option Str
  | [], s => some s
  | .lit p :: ps, s =>
      match s with
      | [] => none
      | c :: t => if charMatch p c then reMatch ps t else none
  | .anyChar :: ps, s =>
      match s with
      | [] => none
      | c :: t => if c = '\n' then none else reMatch ps t
  | .wsStar :: ps, s => tryAll (fun x => reMatch ps x) (wsSuffixes s)

/-- Scan for the leftmost match: try offsets `i, i+1, ...` over the given
suffix; on success return the absolute span `(start, end)`. -/
def reSearchCore (p : List RElem) : Str → Nat → Option (Nat × Nat)
  | suff, i =>
    match reMatch p suff with
    | some r => some (i, i + (suff.length - r.length))
    | none =>
      match suff with
      | [] => none
      | _ :: t => reSearchCore p t (i + 1)

/-- `re.search` of an unanchored pattern: leftmost match span. -/
def reSearch (p : List RElem) (s : Str) : Option (Nat × Nat) := reSearchCore p s 0

/-- `re.search` of a pattern beginning with `^`, with `re.MULTILINE` not
set: the pattern can only match at the very start of the string. -/
def reSearchAnchored (p : List RElem) (s : Str) : Option (Nat × Nat) :=
  match reMatch p s with
  | some r => some (0, s.length - r.length)
  | none => none

/-- `PDFProcessor._prepare_regex`: `re.escape(title).replace('\\ ', '\\s*')`.
`re.escape` turns every character into a regex literal (escaping the special
ones, among which the space character); the `replace` then rewrites exactly
the escaped *space* characters into `\s*`.  Other whitespace (tab, newline,
...) stays an escaped literal. -/
def prepare_regex (t : Str) : List RElem :=
  t.map (fun c => if c = ' ' then .wsStar else .lit c)

/-- The node number is interpolated into the pattern *without* escaping, so
`.` inside a number is the regex any-character. -/
def numPat (n : Str) : List RElem :=
  n.map (fun c => if c = '.' then .anyChar else .lit c)

/-- Chapter pattern `(?i)Глава\s*{num}\s*{title_regex}` (searched unanchored). -/
def chapterPat (num title : Str) : List RElem :=
  ("Глава".data.map .lit) ++ [.wsStar] ++ numPat num ++ [.wsStar] ++ prepare_regex title

/-- Section/subsection pattern `(?i)^{num}\s*{title_regex}` (the leading `^`
is handled by `reSearchAnchored`). -/
def secPat (num title : Str) : List RElem :=
  numPat num ++ [.wsStar] ++ prepare_regex title

/-- Helper for `specRelaxAllWs`: the flag records whether the previous
character was whitespace (so a run contributes a single `wsStar`). -/
def specRelaxAux : Bool → Str → List RElem
  | _, [] => []
  | inWs, c :: r =>
      if pyIsSpace c then
        (if inWs then [] else [RElem.wsStar]) ++ specRelaxAux true r
      else .lit c :: specRelaxAux false r

/-- Modelled from the spec's words, for comparison with `prepare_regex`:
"relax every contiguous run of literal whitespace into match zero or more
whitespace characters". -/
def specRelaxAllWs (t : Str) : List RElem := specRelaxAux false t

/-! ## The data model (nested insertion-ordered dicts) -/

structure SubNode where
  title : Str
  text : Option Str := none
deriving DecidableEq

structure SecNode where
  title : Str
  subsections : List (Str × SubNode) := []
  text : Option Str := none
deriving DecidableEq

structure ChapNode where
  title : Str
  sections : List (Str × SecNode) := []
  text : Option Str := none
deriving DecidableEq

/-- The outline tree: chapter-number keyed, insertion-ordered. -/
abbrev StructT := List (Str × ChapNode)

/-- Ordered-dict lookup (`d[k]` read / `k in d`). -/
def odGet {α : Type} (k : Str) : List (Str × α) → Option α
  | [] => none
  | (k1, v) :: t => if k1 = k then some v else odGet k t

def odContains {α : Type} (k : Str) (l : List (Str × α)) : Bool :=
  (odGet k l).isSome

/-- Ordered-dict assignment `d[k] = v`: overwrite in place, else append. -/
def odSet {α : Type} (k : Str) (v : α) : List (Str × α) → List (Str × α)
  | [] => [(k, v)]
  | (k1, v1) :: t => if k1 = k then (k1, v) :: t else (k1, v1) :: odSet k v t

/-- Update the value at a key in place (no-op when the key is absent). -/
def odUpdate {α : Type} (k : Str) (f : α → α) : List (Str × α) → List (Str × α)
  | [] => []
  | (k1, v1) :: t => if k1 = k then (k1, f v1) :: t else (k1, v1) :: odUpdate k f t

/-! ## Outline Builder (`_parse_chapter`, `_parse_section`, `_is_section`,
`_is_subsection`, `_extract_structure`) -/

/-- Drop a case-insensitive literal marker from the front of a string. -/
def ciDropMarker : Str → Str → Option Str
  | [], s => some s
  | _ :: _, [] => none
  | p :: ps, c :: s => if charMatch p c then ciDropMarker ps s else none

/-- `_parse_chapter`: `re.match(r'(Глава\s*)?(\d+)\.?\s*(.*)', title, re.IGNORECASE)`,
returning `(group(2), _clean_text(group(3)))` on a match and
`("", _clean_text(title))` otherwise.  Backtracking over the optional marker
group collapses to: try with the marker (and maximal whitespace), then
without it. -/
def parse_chapter (t : Str) : Str × Str :=
  let attempt : Str → Option (Str × Str) := fun u =>
    let ds := u.takeWhile isDigitC
    if ds.isEmpty then none
    else
      let r := u.dropWhile isDigitC
      let r := match r with
        | '.' :: r1 => r1
        | _ => r
      some (ds, cleanText (r.dropWhile pyIsSpace))
  match ciDropMarker "Глава".data t with
  | some rest =>
      (match attempt (rest.dropWhile pyIsSpace) with
       | some p => p
       | none =>
         match attempt t with
         | some p => p
         | none => ([], cleanText t))
  | none =>
      match attempt t with
      | some p => p
      | none => ([], cleanText t)

/-- `_parse_section`: `re.match(r'^(\d+(\.\d+)?)(?:\.\s*)?(.*)', title)`,
returning `(group(1), _clean_text(group(3)))` on a match and
`("", _clean_text(title))` otherwise. -/
def parse_section (t : Str) : Str × Str :=
  let d1 := t.takeWhile isDigitC
  if d1.isEmpty then ([], cleanText t)
  else
    let r1 := t.dropWhile isDigitC
    let nr : Str × Str :=
      match r1 with
      | '.' :: r2 =>
          let d2 := r2.takeWhile isDigitC
          if d2.isEmpty then (d1, r1) else (d1 ++ '.' :: d2, r2.dropWhile isDigitC)
      | _ => (d1, r1)
    let r3 : Str :=
      match nr.2 with
      | '.' :: r4 => r4.dropWhile pyIsSpace
      | _ => nr.2
    (nr.1, cleanText r3)

/-- `_is_section`: `re.match(r'^\d+$', s)`. -/
def is_sec (s : Str) : Bool := !s.isEmpty && s.all isDigitC

/-- `_is_subsection`: `re.match(r'^\d+\.\d+$', s)`. -/
def is_subsec (s : Str) : Bool :=
  let d1 := s.takeWhile isDigitC
  let r := s.dropWhile isDigitC
  !d1.isEmpty &&
    (match r with
     | '.' :: r1 => !r1.isEmpty && r1.all isDigitC
     | _ => false)

/-- A table-of-contents entry `(level, title, page)`. -/
abbrev TocEntry := Nat × Str × Nat

/-- First index of an entry in the toc (`toc.index([level, title, page])`). -/
def listIdx : List TocEntry → TocEntry → Option Nat
  | [], _ => none
  | x :: r, e => if x = e then some 0 else (listIdx r e).map (· + 1)

/-- The fallback title taken from the entry following the first occurrence of
`e` in `toc` (lines 142-145 of the source), cleaned; empty when there is no
next entry. -/
def tocNextTitle (toc : List TocEntry) (e : TocEntry) : Str :=
  match listIdx toc e with
  | some i =>
      match toc.get? (i + 1) with
      | some (_, t2, _) => cleanText t2
      | none => []
  | none => []

/-- Builder state: the structure built so far plus `current_chapter` and
`current_section` (Python `None` = `none`). -/
structure BState where
  struct : StructT
  curCh : Option Str
  curSec : Option Str
deriving DecidableEq

/-- One iteration of the `for level, title, page in toc` loop of
`_extract_structure`. -/
def buildStep (toc : List TocEntry) (st : BState) (e : TocEntry) : BState :=
  let (level, title, _) := e
  let cp : Str × Str := if level = 1 then parse_chapter title else ([], [])
  let sp : Str × Str :=
    if (level = 2 || level = 3) && st.curCh.isSome then parse_section title else ([], [])
  if cp.1 ≠ [] then
    let struct1 := odSet cp.1 ⟨cp.2, [], none⟩ st.struct
    let struct2 :=
      if cp.2 = [] then
        odUpdate cp.1 (fun ch => { ch with title := tocNextTitle toc e }) struct1
      else struct1
    ⟨struct2, some cp.1, st.curSec⟩
  else if sp.1 ≠ [] then
    if is_sec sp.1 then
      match st.curCh with
      | some c =>
          let struct1 :=
            if odContains c st.struct then st.struct else odSet c ⟨[], [], none⟩ st.struct
          ⟨odUpdate c (fun ch =>
              { ch with sections := odSet sp.1 ⟨sp.2, [], none⟩ ch.sections }) struct1,
            st.curCh, some sp.1⟩
      | none => st
    else if is_subsec sp.1 then
      match st.curSec, st.curCh with
      | some s, some c =>
          if odContains c st.struct then
            ⟨odUpdate c (fun ch =>
                let secs :=
                  if odContains s ch.sections then ch.sections
                  else odSet s ⟨[], [], none⟩ ch.sections
                { ch with sections := odUpdate s (fun se =>
                    { se with subsections := odSet sp.1 ⟨sp.2, none⟩ se.subsections }) secs })
              st.struct,
              st.curCh, st.curSec⟩
          else st
      | _, _ => st
    else st
  else st

/-- `_extract_structure` applied to an already-extracted table of contents. -/
def extract_structure (toc : List TocEntry) : StructT :=
  (toc.foldl (buildStep toc) ⟨[], none, none⟩).struct

/-! ## Sequential Splitter (`_set_section_text`, `_match_structure`) -/

/-- The `prev_level` dictionary: which node is `active`. -/
inductive PrevLevel where
  | start
  | chapter (c : Str)
  | sec (c s : Str)
  | sub (c s ss : Str)
deriving DecidableEq

/-- `_set_section_text`: write a text span at the active node's path.  (A
missing key, which would be a `KeyError` in Python but never occurs in the
pipeline, leaves the structure unchanged.) -/
def set_section_text (pl : PrevLevel) (v : Str) (st : StructT) : StructT :=
  match pl with
  | .start => st
  | .chapter c => odUpdate c (fun ch => { ch with text := some v }) st
  | .sec c s =>
      odUpdate c (fun ch =>
        { ch with sections := odUpdate s (fun se => { se with text := some v }) ch.sections }) st
  | .sub c s ss =>
      odUpdate c (fun ch =>
        { ch with sections := odUpdate s (fun se =>
            { se with subsections :=
                odUpdate ss (fun su => { su with text := some v }) se.subsections }) ch.sections }) st

/-- Splitter state: `prev_match_end`, `prev_level` and the structure being
filled in. -/
structure MState where
  prevEnd : Nat
  prev : PrevLevel
  acc : StructT
deriving DecidableEq

/-- The body of the innermost (`subsection`) loop of `_match_structure`. -/
def subStep (c s : Str) (text : Str) (st : MState) (e : Str × SubNode) : MState :=
  match reSearchAnchored (secPat e.1 e.2.title) text with
  | some (a, b) =>
      let v := pySlice text st.prevEnd a
      ⟨b, .sub c s e.1, if hasNonWs v then set_section_text st.prev v st.acc else st.acc⟩
  | none => st

/-- The body of the `section` loop: on a match, assign the pending span,
advance, then run the subsection loop; on failure, `continue` (the
subsections are skipped). -/
def secStep (c : Str) (text : Str) (st : MState) (e : Str × SecNode) : MState :=
  match reSearchAnchored (secPat e.1 e.2.title) text with
  | some (a, b) =>
      let v := pySlice text st.prevEnd a
      let st1 : MState :=
        ⟨b, .sec c e.1, if hasNonWs v then set_section_text st.prev v st.acc else st.acc⟩
      e.2.subsections.foldl (subStep c e.1 text) st1
  | none => st

/-- The body of the `chapter` loop: on a match, assign the pending span,
advance, then run the section loop; on failure, `continue` (the whole
chapter body, sections included, is skipped). -/
def chapStep (text : Str) (st : MState) (e : Str × ChapNode) : MState :=
  match reSearch (chapterPat e.1 e.2.title) text with
  | some (a, b) =>
      let v := pySlice text st.prevEnd a
      let st1 : MState :=
        ⟨b, .chapter e.1, if hasNonWs v then set_section_text st.prev v st.acc else st.acc⟩
      e.2.sections.foldl (secStep e.1 text) st1
  | none => st

/-- `_match_structure`: the nested loops followed by the final
`if prev_match_end < len(self.text)` assignment of the tail. -/
def match_structure (input : StructT) (text : Str) : StructT :=
  let st := input.foldl (chapStep text) ⟨0, .start, input⟩
  if st.prevEnd < text.length then set_section_text st.prev (text.drop st.prevEnd) st.acc
  else st.acc

/-- `process_book` on an already-assembled document text: build the skeleton
from the toc, then split the text over it. -/
def processBook (toc : List TocEntry) (text : Str) : StructT :=
  match_structure (extract_structure toc) text

/-! ## Observations on the tree -/

/-- Read the `text` field at a path (absent key or absent field: `none`). -/
def getText : PrevLevel → StructT → Option Str
  | .start, _ => none
  | .chapter c, st => (odGet c st).bind (fun ch => ch.text)
  | .sec c s, st =>
      (odGet c st).bind (fun ch => (odGet s ch.sections).bind (fun se => se.text))
  | .sub c s ss, st =>
      (odGet c st).bind (fun ch => (odGet s ch.sections).bind (fun se =>
        (odGet ss se.subsections).bind (fun su => su.text)))

/-- Read the `title` field at a path. -/
def getTitle : PrevLevel → StructT → Option Str
  | .start, _ => none
  | .chapter c, st => (odGet c st).map (fun ch => ch.title)
  | .sec c s, st =>
      (odGet c st).bind (fun ch => (odGet s ch.sections).map (fun se => se.title))
  | .sub c s ss, st =>
      (odGet c st).bind (fun ch => (odGet s ch.sections).bind (fun se =>
        (odGet ss se.subsections).map (fun su => su.title)))

/-- The path denotes an existing node of the tree. -/
def pathOkB : PrevLevel → StructT → Bool
  | .start, _ => false
  | .chapter c, st => (odGet c st).isSome
  | .sec c s, st =>
      match odGet c st with
      | some ch => (odGet s ch.sections).isSome
      | none => false
  | .sub c s ss, st =>
      match odGet c st with
      | some ch =>
          match odGet s ch.sections with
          | some se => (odGet ss se.subsections).isSome
          | none => false
      | none => false

/-- Every `text` field of the tree is absent (the builder's output). -/
def allTextsNoneB (st : StructT) : Bool :=
  st.all (fun p => p.2.text.isNone &&
    p.2.sections.all (fun q => q.2.text.isNone &&
      q.2.subsections.all (fun r => r.2.text.isNone)))

/-! ## The statically-determined sequence of successful matches

Whether a node's heading matches depends only on the node and the document
text (each search scans the whole text), never on the cursor, so the
sequence of successful matches produced by the nested loops -- skipping the
descendants of failed nodes -- is a pure function of the tree and the text. -/

/-- A successful match event: the matched node's path and its span. -/
structure MNode where
  path : PrevLevel
  s : Nat
  e : Nat
deriving DecidableEq

def subMatched (text : Str) (c s : Str) (e : Str × SubNode) : List MNode :=
  match reSearchAnchored (secPat e.1 e.2.title) text with
  | some (a, b) => [⟨.sub c s e.1, a, b⟩]
  | none => []

def secMatched (text : Str) (c : Str) (e : Str × SecNode) : List MNode :=
  match reSearchAnchored (secPat e.1 e.2.title) text with
  | some (a, b) => ⟨.sec c e.1, a, b⟩ :: e.2.subsections.flatMap (subMatched text c e.1)
  | none => []

def chapMatched (text : Str) (e : Str × ChapNode) : List MNode :=
  match reSearch (chapterPat e.1 e.2.title) text with
  | some (a, b) => ⟨.chapter e.1, a, b⟩ :: e.2.sections.flatMap (secMatched text e.1)
  | none => []

/-- The successful matches of a whole run, in execution order. -/
def matchedSeq (input : StructT) (text : Str) : List MNode :=
  input.flatMap (chapMatched text)

/-- One assignment step of the splitter, driven by a match event. -/
def applyStep (text : Str) (st : MState) (m : MNode) : MState :=
  let v := pySlice text st.prevEnd m.s
  ⟨m.e, m.path, if hasNonWs v then set_section_text st.prev v st.acc else st.acc⟩

def applySeq (text : Str) (st : MState) (l : List MNode) : MState :=
  l.foldl (applyStep text) st

/-- The final tail assignment of `_match_structure`. -/
def finalize (text : Str) (st : MState) : StructT :=
  if st.prevEnd < text.length then set_section_text st.prev (text.drop st.prevEnd) st.acc
  else st.acc

/-- Start of the next match, or the end of the document. -/
def nextStartD (text : Str) : List MNode → Nat
  | [] => text.length
  | m :: _ => m.s

/-- For each match in turn, its matched heading text followed by the span
reaching to the next match (or to the end of the document). -/
def headSpans (text : Str) : List MNode → List Str
  | [] => []
  | m :: r => pySlice text m.s m.e :: pySlice text m.e (nextStartD text r) :: headSpans text r

/-- The match spans occur in order: each starts no earlier than the previous
cursor position and ends no earlier than it starts. -/
def spansChainB (text : Str) : Nat → List MNode → Bool
  | _, [] => true
  | pe, m :: r => decide (pe ≤ m.s) && decide (m.s ≤ m.e) && spansChainB text m.e r

/-- The pattern list occurs (as a contiguous block) at the head of `s`. -/
def occursAt (pat s : Str) : Bool := decide (pat = s.take pat.length)

/-- The pattern list occurs literally somewhere inside `s`. -/
def containsSeq (pat : Str) : Str → Bool
  | [] => pat.isEmpty
  | c :: r => occursAt pat (c :: r) || containsSeq pat r

/-- `s` is obtained from `t` by replacing each space with an arbitrary
(possibly empty) run of whitespace. -/
inductive SpRelax : Str → Str → Prop where
  | nil : SpRelax [] []
  | ch (c : Char) (t s : Str) (hc : ¬c = ' ') (h : SpRelax t s) : SpRelax (c :: t) (c :: s)
  | sp (w : Str) (t s : Str) (hw : ∀ c ∈ w, pyIsSpace c = true) (h : SpRelax t s) :
      SpRelax (' ' :: t) (w ++ s)

/-! ## Concrete inputs used by the closed theorems -/

def exToc4 : List TocEntry := [(1, "1 A".data, 1)]

def exIn1 : StructT := [("1".data, ⟨"Zzz".data, [("1".data, ⟨"B".data, [], none⟩)], none⟩)]

def exTx1 : Str := "1 B hello".data

def exTx2 : Str := "Глава 1 A\n1 First text".data

def exIn6 : StructT := [("1".data, ⟨"A".data, [], none⟩), ("2".data, ⟨"B".data, [], none⟩)]

def exTx6 : Str := "Глава 1 A x Глава 2 B y".data

def exToc7 : List TocEntry := [(1, "1 A".data, 1), (2, "1 B".data, 2), (2, "2.1.3 Foo".data, 3)]

def exToc8 : List TocEntry := [(1, "Intro".data, 1), (1, "1 Next".data, 2)]

def exTocG : List TocEntry := [(1, "Глава 3".data, 1), (2, "1 X".data, 2)]

def exToc9 : List TocEntry := [(1, "1 A".data, 1), (2, "1.1 B".data, 2)]

def exTx5 : Str := "Глава 1 A tail".data

/-! ## Ordered-dict lemmas -/

theorem odGet_odUpdate_self {α : Type} (k : Str) (f : α → α) (l : List (Str × α)) :
    odGet k (odUpdate k f l) = (odGet k l).map f := by
  induction l with
  | nil => rfl
  | cons hd t ih =>
      obtain ⟨k1, v1⟩ := hd
      by_cases h : k1 = k
      · simp [odUpdate, odGet, h]
      · simp [odUpdate, odGet, h, ih]

theorem odGet_odUpdate_ne {α : Type} {k k1 : Str} (h : k ≠ k1) (f : α → α)
    (l : List (Str × α)) : odGet k (odUpdate k1 f l) = odGet k l := by
  induction l with
  | nil => rfl
  | cons hd t ih =>
      obtain ⟨k2, v2⟩ := hd
      simp only [odUpdate]
      by_cases h2 : k2 = k1
      · rw [if_pos h2]
        have hne : ¬(k2 = k) := fun hh => h (hh.symm.trans h2)
        simp [odGet, hne]
      · rw [if_neg h2]
        simp [odGet, ih]

theorem odUpdate_eq_of_get {α : Type} {k : Str} {l : List (Str × α)} {v : α}
    (h : odGet k l = some v) (f : α → α) : odUpdate k f l = odSet k (f v) l := by
  induction l with
  | nil => simp [odGet] at h
  | cons hd t ih =>
      obtain ⟨k1, v1⟩ := hd
      by_cases h1 : k1 = k
      · simp only [odGet, if_pos h1] at h
        cases h
        simp [odUpdate, odSet, h1]
      · simp only [odGet, if_neg h1] at h
        simp [odUpdate, odSet, h1, ih h]

theorem odSet_of_not_contains {α : Type} {k : Str} {l : List (Str × α)}
    (h : odContains k l = false) (v : α) : odSet k v l = l ++ [(k, v)] := by
  induction l with
  | nil => rfl
  | cons hd t ih =>
      obtain ⟨k1, v1⟩ := hd
      by_cases h1 : k1 = k
      · simp [odContains, odGet, h1] at h
      · simp only [odContains, odGet, if_neg h1] at h
        simp [odSet, h1, ih h]

theorem odUpdate_append_single {α : Type} {k : Str} {l : List (Str × α)}
    (h : odContains k l = false) (f : α → α) (v : α) :
    odUpdate k f (l ++ [(k, v)]) = l ++ [(k, f v)] := by
  induction l with
  | nil => simp [odUpdate]
  | cons hd t ih =>
      obtain ⟨k1, v1⟩ := hd
      by_cases h1 : k1 = k
      · simp [odContains, odGet, h1] at h
      · simp only [odContains, odGet, if_neg h1] at h
        simp [odUpdate, h1, ih h]

theorem odUpdate_odSet {α : Type} (k : Str) (f : α → α) (v : α) (l : List (Str × α)) :
    odUpdate k f (odSet k v l) = odSet k (f v) l := by
  induction l with
  | nil => simp [odSet, odUpdate]
  | cons hd t ih =>
      obtain ⟨k1, v1⟩ := hd
      by_cases h1 : k1 = k
      · simp [odSet, odUpdate, h1]
      · simp [odSet, odUpdate, h1, ih]

theorem odGet_mem {α : Type} {k : Str} {l : List (Str × α)} {v : α}
    (h : odGet k l = some v) : (k, v) ∈ l := by
  induction l with
  | nil => simp [odGet] at h
  | cons hd t ih =>
      obtain ⟨k1, v1⟩ := hd
      by_cases h1 : k1 = k
      · simp only [odGet, if_pos h1] at h
        cases h
        subst h1
        exact List.mem_cons_self _ _
      · simp only [odGet, if_neg h1] at h
        exact List.mem_cons_of_mem _ (ih h)

/-! ## Reading and writing text fields -/

theorem sst_start (v : Str) (st : StructT) : set_section_text .start v st = st := rfl

theorem getText_sst_ne (p q : PrevLevel) (v : Str) (st : StructT) (hpq : p ≠ q) :
    getText p (set_section_text q v st) = getText p st := by
  cases q with
  | start => rfl
  | chapter c1 =>
      cases p with
      | start => rfl
      | chapter c =>
          have hc : c ≠ c1 := fun h => hpq (by rw [h])
          simp [getText, set_section_text, odGet_odUpdate_ne hc]
      | sec c s =>
          by_cases hc : c = c1
          · subst hc
            simp only [getText, set_section_text, odGet_odUpdate_self]
            cases odGet c st <;> simp
          · simp [getText, set_section_text, odGet_odUpdate_ne hc]
      | sub c s ss =>
          by_cases hc : c = c1
          · subst hc
            simp only [getText, set_section_text, odGet_odUpdate_self]
            cases odGet c st <;> simp
          · simp [getText, set_section_text, odGet_odUpdate_ne hc]
  | sec c1 s1 =>
      cases p with
      | start => rfl
      | chapter c =>
          by_cases hc : c = c1
          · subst hc
            simp only [getText, set_section_text, odGet_odUpdate_self]
            cases odGet c st <;> simp
          · simp [getText, set_section_text, odGet_odUpdate_ne hc]
      | sec c s =>
          by_cases hc : c = c1
          · subst hc
            by_cases hs : s = s1
            · subst hs
              exact (hpq rfl).elim
            · simp only [getText, set_section_text, odGet_odUpdate_self]
              cases odGet c st with
              | none => simp
              | some ch => simp [odGet_odUpdate_ne hs]
          · simp [getText, set_section_text, odGet_odUpdate_ne hc]
      | sub c s ss =>
          by_cases hc : c = c1
          · subst hc
            by_cases hs : s = s1
            · subst hs
              simp only [getText, set_section_text, odGet_odUpdate_self]
              cases odGet c st with
              | none => simp
              | some ch =>
                  simp only [Option.map_some', Option.some_bind]
                  simp only [odGet_odUpdate_self]
                  cases odGet s ch.sections <;> simp
            · simp only [getText, set_section_text, odGet_odUpdate_self]
              cases odGet c st with
              | none => simp
              | some ch => simp [odGet_odUpdate_ne hs]
          · simp [getText, set_section_text, odGet_odUpdate_ne hc]
  | sub c1 s1 ss1 =>
      cases p with
      | start => rfl
      | chapter c =>
          by_cases hc : c = c1
          · subst hc
            simp only [getText, set_section_text, odGet_odUpdate_self]
            cases odGet c st <;> simp
          · simp [getText, set_section_text, odGet_odUpdate_ne hc]
      | sec c s =>
          by_cases hc : c = c1
          · subst hc
            by_cases hs : s = s1
            · subst hs
              simp only [getText, set_section_text, odGet_odUpdate_self]
              cases odGet c st with
              | none => simp
              | some ch =>
                  simp only [Option.map_some', Option.some_bind]
                  simp only [odGet_odUpdate_self]
                  cases odGet s ch.sections <;> simp
            · simp only [getText, set_section_text, odGet_odUpdate_self]
              cases odGet c st with
              | none => simp
              | some ch => simp [odGet_odUpdate_ne hs]
          · simp [getText, set_section_text, odGet_odUpdate_ne hc]
      | sub c s ss =>
          by_cases hc : c = c1
          · subst hc
            by_cases hs : s = s1
            · subst hs
              by_cases hss : ss = ss1
              · subst hss
                exact (hpq rfl).elim
              · simp only [getText, set_section_text, odGet_odUpdate_self]
                cases odGet c st with
                | none => simp
                | some ch =>
                    simp only [Option.map_some', Option.some_bind]
                    simp only [odGet_odUpdate_self]
                    cases odGet s ch.sections with
                    | none => simp
                    | some se => simp [odGet_odUpdate_ne hss]
            · simp only [getText, set_section_text, odGet_odUpdate_self]
              cases odGet c st with
              | none => simp
              | some ch => simp [odGet_odUpdate_ne hs]
          · simp [getText, set_section_text, odGet_odUpdate_ne hc]

theorem getTitle_sst (p q : PrevLevel) (v : Str) (st : StructT) :
    getTitle p (set_section_text q v st) = getTitle p st := by
  cases q with
  | start => rfl
  | chapter c1 =>
      cases p with
      | start => rfl
      | chapter c =>
          by_cases hc : c = c1
          · subst hc
            simp only [getTitle, set_section_text, odGet_odUpdate_self]
            cases odGet c st <;> simp
          · simp [getTitle, set_section_text, odGet_odUpdate_ne hc]
      | sec c s =>
          by_cases hc : c = c1
          · subst hc
            simp only [getTitle, set_section_text, odGet_odUpdate_self]
            cases odGet c st <;> simp
          · simp [getTitle, set_section_text, odGet_odUpdate_ne hc]
      | sub c s ss =>
          by_cases hc : c = c1
          · subst hc
            simp only [getTitle, set_section_text, odGet_odUpdate_self]
            cases odGet c st <;> simp
          · simp [getTitle, set_section_text, odGet_odUpdate_ne hc]
  | sec c1 s1 =>
      cases p with
      | start => rfl
      | chapter c =>
          by_cases hc : c = c1
          · subst hc
            simp only [getTitle, set_section_text, odGet_odUpdate_self]
            cases odGet c st <;> simp
          · simp [getTitle, set_section_text, odGet_odUpdate_ne hc]
      | sec c s =>
          by_cases hc : c = c1
          · subst hc
            simp only [getTitle, set_section_text, odGet_odUpdate_self]
            cases odGet c st with
            | none => simp
            | some ch =>
                by_cases hs : s = s1
                · subst hs
                  simp [odGet_odUpdate_self]
                  cases odGet s ch.sections <;> simp
                · simp [odGet_odUpdate_ne hs]
          · simp [getTitle, set_section_text, odGet_odUpdate_ne hc]
      | sub c s ss =>
          by_cases hc : c = c1
          · subst hc
            simp only [getTitle, set_section_text, odGet_odUpdate_self]
            cases odGet c st with
            | none => simp
            | some ch =>
                by_cases hs : s = s1
                · subst hs
                  simp [odGet_odUpdate_self]
                  cases odGet s ch.sections <;> simp
                · simp [odGet_odUpdate_ne hs]
          · simp [getTitle, set_section_text, odGet_odUpdate_ne hc]
  | sub c1 s1 ss1 =>
      cases p with
      | start => rfl
      | chapter c =>
          by_cases hc : c = c1
          · subst hc
            simp only [getTitle, set_section_text, odGet_odUpdate_self]
            cases odGet c st <;> simp
          · simp [getTitle, set_section_text, odGet_odUpdate_ne hc]
      | sec c s =>
          by_cases hc : c = c1
          · subst hc
            simp only [getTitle, set_section_text, odGet_odUpdate_self]
            cases odGet c st with
            | none => simp
            | some ch =>
                by_cases hs : s = s1
                · subst hs
                  simp [odGet_odUpdate_self]
                  cases odGet s ch.sections <;> simp
                · simp [odGet_odUpdate_ne hs]
          · simp [getTitle, set_section_text, odGet_odUpdate_ne hc]
      | sub c s ss =>
          by_cases hc : c = c1
          · subst hc
            simp only [getTitle, set_section_text, odGet_odUpdate_self]
            cases odGet c st with
            | none => simp
            | some ch =>
                by_cases hs : s = s1
                · subst hs
                  simp only [Option.map_some', Option.some_bind, odGet_odUpdate_self]
                  cases odGet s ch.sections with
                  | none => simp
                  | some se =>
                      by_cases hss : ss = ss1
                      · subst hss
                        simp [odGet_odUpdate_self]
                        cases odGet ss se.subsections <;> simp
                      · simp [odGet_odUpdate_ne hss]
                · simp [odGet_odUpdate_ne hs]
          · simp [getTitle, set_section_text, odGet_odUpdate_ne hc]

theorem pathOk_sst (p q : PrevLevel) (v : Str) (st : StructT) :
    pathOkB p (set_section_text q v st) = pathOkB p st := by
  cases q with
  | start => rfl
  | chapter c1 =>
      cases p with
      | start => rfl
      | chapter c =>
          by_cases hc : c = c1
          · subst hc
            simp only [pathOkB, set_section_text, odGet_odUpdate_self]
            cases odGet c st <;> simp
          · simp [pathOkB, set_section_text, odGet_odUpdate_ne hc]
      | sec c s =>
          by_cases hc : c = c1
          · subst hc
            simp only [pathOkB, set_section_text, odGet_odUpdate_self]
            cases odGet c st <;> simp
          · simp [pathOkB, set_section_text, odGet_odUpdate_ne hc]
      | sub c s ss =>
          by_cases hc : c = c1
          · subst hc
            simp only [pathOkB, set_section_text, odGet_odUpdate_self]
            cases odGet c st <;> simp
          · simp [pathOkB, set_section_text, odGet_odUpdate_ne hc]
  | sec c1 s1 =>
      cases p with
      | start => rfl
      | chapter c =>
          by_cases hc : c = c1
          · subst hc
            simp only [pathOkB, set_section_text, odGet_odUpdate_self]
            cases odGet c st <;> simp
          · simp [pathOkB, set_section_text, odGet_odUpdate_ne hc]
      | sec c s =>
          by_cases hc : c = c1
          · subst hc
            simp only [pathOkB, set_section_text, odGet_odUpdate_self]
            cases odGet c st with
            | none => simp
            | some ch =>
                by_cases hs : s = s1
                · subst hs
                  simp [odGet_odUpdate_self]
                · simp [odGet_odUpdate_ne hs]
          · simp [pathOkB, set_section_text, odGet_odUpdate_ne hc]
      | sub c s ss =>
          by_cases hc : c = c1
          · subst hc
            simp only [pathOkB, set_section_text, odGet_odUpdate_self]
            cases odGet c st with
            | none => simp
            | some ch =>
                by_cases hs : s = s1
                · subst hs
                  simp only [Option.map_some']
                  simp only [odGet_odUpdate_self]
                  cases odGet s ch.sections <;> simp
                · simp [odGet_odUpdate_ne hs]
          · simp [pathOkB, set_section_text, odGet_odUpdate_ne hc]
  | sub c1 s1 ss1 =>
      cases p with
      | start => rfl
      | chapter c =>
          by_cases hc : c = c1
          · subst hc
            simp only [pathOkB, set_section_text, odGet_odUpdate_self]
            cases odGet c st <;> simp
          · simp [pathOkB, set_section_text, odGet_odUpdate_ne hc]
      | sec c s =>
          by_cases hc : c = c1
          · subst hc
            simp only [pathOkB, set_section_text, odGet_odUpdate_self]
            cases odGet c st with
            | none => simp
            | some ch =>
                by_cases hs : s = s1
                · subst hs
                  simp [odGet_odUpdate_self]
                · simp [odGet_odUpdate_ne hs]
          · simp [pathOkB, set_section_text, odGet_odUpdate_ne hc]
      | sub c s ss =>
          by_cases hc : c = c1
          · subst hc
            simp only [pathOkB, set_section_text, odGet_odUpdate_self]
            cases odGet c st with
            | none => simp
            | some ch =>
                by_cases hs : s = s1
                · subst hs
                  simp only [Option.map_some']
                  simp only [odGet_odUpdate_self]
                  cases odGet s ch.sections with
                  | none => simp
                  | some se =>
                      by_cases hss : ss = ss1
                      · subst hss
                        simp [odGet_odUpdate_self]
                      · simp [odGet_odUpdate_ne hss]
                · simp [odGet_odUpdate_ne hs]
          · simp [pathOkB, set_section_text, odGet_odUpdate_ne hc]

theorem getText_sst_self (p : PrevLevel) (v : Str) (st : StructT)
    (h : pathOkB p st = true) : getText p (set_section_text p v st) = some v := by
  cases p with
  | start => simp [pathOkB] at h
  | chapter c =>
      simp only [pathOkB] at h
      obtain ⟨ch, hch⟩ := Option.isSome_iff_exists.mp h
      simp [getText, set_section_text, odGet_odUpdate_self, hch]
  | sec c s =>
      cases hch : odGet c st with
      | none => simp [pathOkB, hch] at h
      | some ch =>
          simp only [pathOkB, hch] at h
          obtain ⟨se, hse⟩ := Option.isSome_iff_exists.mp h
          simp [getText, set_section_text, odGet_odUpdate_self, hch, hse]
  | sub c s ss =>
      cases hch : odGet c st with
      | none => simp [pathOkB, hch] at h
      | some ch =>
          cases hse : odGet s ch.sections with
          | none => simp [pathOkB, hch, hse] at h
          | some se =>
              simp only [pathOkB, hch, hse] at h
              obtain ⟨su, hsu⟩ := Option.isSome_iff_exists.mp h
              simp [getText, set_section_text, odGet_odUpdate_self, hch, hse, hsu]

/-- Combined untouched lemma: writing at `q` never changes the text read at a
different path, and writing at `start` does nothing. -/
theorem getText_sst_untouched (p q : PrevLevel) (v : Str) (st : StructT)
    (h : q = .start ∨ p ≠ q) : getText p (set_section_text q v st) = getText p st := by
  rcases h with h | h
  · rw [h, sst_start]
  · exact getText_sst_ne p q v st h

/-! ## Slice algebra -/

theorem pySlice_glue (t : Str) {a b : Nat} (h : a ≤ b) :
    pySlice t a b ++ t.drop b = t.drop a := by
  have hb : t.drop b = (t.drop a).drop (b - a) := by
    rw [List.drop_drop]
    congr 1
    omega
  rw [pySlice, hb, List.take_append_drop]

theorem pySlice_to_end (t : Str) (a : Nat) : pySlice t a t.length = t.drop a := by
  rw [pySlice]
  apply List.take_of_length_le
  simp

/-! ## The nested loops equal the fold over the static match sequence -/

theorem applySeq_append (text : Str) (st : MState) (l1 l2 : List MNode) :
    applySeq text st (l1 ++ l2) = applySeq text (applySeq text st l1) l2 := by
  simp [applySeq, List.foldl_append]

theorem subStep_eq (c s : Str) (text : Str) (st : MState) (e : Str × SubNode) :
    subStep c s text st e = applySeq text st (subMatched text c s e) := by
  cases h : reSearchAnchored (secPat e.1 e.2.title) text with
  | none => simp [subStep, subMatched, applySeq, h]
  | some ab =>
      obtain ⟨a, b⟩ := ab
      simp [subStep, subMatched, applySeq, applyStep, h]

theorem foldl_subStep_eq (c s : Str) (text : Str) (l : List (Str × SubNode)) :
    ∀ st : MState,
      l.foldl (subStep c s text) st = applySeq text st (l.flatMap (subMatched text c s)) := by
  induction l with
  | nil => intro st; rfl
  | cons e t ih =>
      intro st
      rw [List.foldl_cons, ih, subStep_eq, List.flatMap_cons, applySeq_append]

theorem secStep_eq (c : Str) (text : Str) (st : MState) (e : Str × SecNode) :
    secStep c text st e = applySeq text st (secMatched text c e) := by
  cases h : reSearchAnchored (secPat e.1 e.2.title) text with
  | none => simp [secStep, secMatched, applySeq, h]
  | some ab =>
      obtain ⟨a, b⟩ := ab
      simp only [secStep, secMatched, h]
      rw [foldl_subStep_eq]
      rfl

theorem foldl_secStep_eq (c : Str) (text : Str) (l : List (Str × SecNode)) :
    ∀ st : MState,
      l.foldl (secStep c text) st = applySeq text st (l.flatMap (secMatched text c)) := by
  induction l with
  | nil => intro st; rfl
  | cons e t ih =>
      intro st
      rw [List.foldl_cons, ih, secStep_eq, List.flatMap_cons, applySeq_append]

theorem chapStep_eq (text : Str) (st : MState) (e : Str × ChapNode) :
    chapStep text st e = applySeq text st (chapMatched text e) := by
  cases h : reSearch (chapterPat e.1 e.2.title) text with
  | none => simp [chapStep, chapMatched, applySeq, h]
  | some ab =>
      obtain ⟨a, b⟩ := ab
      simp only [chapStep, chapMatched, h]
      rw [foldl_secStep_eq]
      rfl

theorem foldl_chapStep_eq (text : Str) (l : StructT) :
    ∀ st : MState,
      l.foldl (chapStep text) st = applySeq text st (l.flatMap (chapMatched text)) := by
  induction l with
  | nil => intro st; rfl
  | cons e t ih =>
      intro st
      rw [List.foldl_cons, ih, chapStep_eq, List.flatMap_cons, applySeq_append]

/-- `_match_structure` is the fold of the assignment step over the static
sequence of successful matches, followed by the tail assignment. -/
theorem match_structure_flat (input : StructT) (text : Str) :
    match_structure input text =
      finalize text (applySeq text ⟨0, .start, input⟩ (matchedSeq input text)) := by
  unfold match_structure finalize matchedSeq
  rw [foldl_chapStep_eq]

/-! ## What the assignment fold touches -/

theorem applyStep_acc (text : Str) (st : MState) (m : MNode) (p : PrevLevel)
    (h : st.prev = .start ∨ p ≠ st.prev) :
    getText p (applyStep text st m).acc = getText p st.acc := by
  simp only [applyStep]
  cases hw : hasNonWs (pySlice text st.prevEnd m.s) with
  | false => simp [hw]
  | true =>
      simp only [hw, if_true]
      exact getText_sst_untouched p st.prev _ st.acc h

theorem applyStep_pathOk (text : Str) (st : MState) (m : MNode) (q : PrevLevel) :
    pathOkB q (applyStep text st m).acc = pathOkB q st.acc := by
  simp only [applyStep]
  cases hw : hasNonWs (pySlice text st.prevEnd m.s) with
  | false => simp [hw]
  | true =>
      simp only [hw, if_true]
      exact pathOk_sst q st.prev _ st.acc

theorem applyStep_title (text : Str) (st : MState) (m : MNode) (p : PrevLevel) :
    getTitle p (applyStep text st m).acc = getTitle p st.acc := by
  simp only [applyStep]
  cases hw : hasNonWs (pySlice text st.prevEnd m.s) with
  | false => simp [hw]
  | true =>
      simp only [hw, if_true]
      exact getTitle_sst p st.prev _ st.acc

theorem applySeq_pathOk (text : Str) (q : PrevLevel) (l : List MNode) :
    ∀ st : MState, pathOkB q (applySeq text st l).acc = pathOkB q st.acc := by
  induction l with
  | nil => intro st; rfl
  | cons m t ih =>
      intro st
      rw [show applySeq text st (m :: t) = applySeq text (applyStep text st m) t from rfl,
        ih, applyStep_pathOk]

theorem applySeq_title (text : Str) (p : PrevLevel) (l : List MNode) :
    ∀ st : MState, getTitle p (applySeq text st l).acc = getTitle p st.acc := by
  induction l with
  | nil => intro st; rfl
  | cons m t ih =>
      intro st
      rw [show applySeq text st (m :: t) = applySeq text (applyStep text st m) t from rfl,
        ih, applyStep_title]

theorem applySeq_prev_cases (text : Str) (l : List MNode) :
    ∀ st : MState,
      (applySeq text st l).prev = st.prev ∨ (applySeq text st l).prev ∈ l.map MNode.path := by
  induction l with
  | nil => intro st; left; rfl
  | cons m t ih =>
      intro st
      rcases ih (applyStep text st m) with h | h
      · right
        rw [show applySeq text st (m :: t) = applySeq text (applyStep text st m) t from rfl, h]
        exact List.mem_cons_self _ _
      · right
        rw [show applySeq text st (m :: t) = applySeq text (applyStep text st m) t from rfl]
        exact List.mem_cons_of_mem _ h

theorem applySeq_acc_untouched (text : Str) (p : PrevLevel) (l : List MNode) :
    ∀ st : MState, (st.prev = .start ∨ p ≠ st.prev) → p ∉ l.map MNode.path →
      getText p (applySeq text st l).acc = getText p st.acc := by
  induction l with
  | nil => intro st _ _; rfl
  | cons m t ih =>
      intro st h1 h2
      rw [List.map_cons, List.mem_cons, not_or] at h2
      rw [show applySeq text st (m :: t) = applySeq text (applyStep text st m) t from rfl,
        ih (applyStep text st m) (Or.inr h2.1) h2.2, applyStep_acc text st m p h1]

theorem finalize_untouched (text : Str) (st : MState) (p : PrevLevel)
    (h : st.prev = .start ∨ p ≠ st.prev) :
    getText p (finalize text st) = getText p st.acc := by
  unfold finalize
  by_cases hlt : st.prevEnd < text.length
  · rw [if_pos hlt]
    exact getText_sst_untouched p st.prev _ st.acc h
  · rw [if_neg hlt]

theorem finalize_title (text : Str) (st : MState) (p : PrevLevel) :
    getTitle p (finalize text st) = getTitle p st.acc := by
  unfold finalize
  by_cases hlt : st.prevEnd < text.length
  · rw [if_pos hlt]
    exact getTitle_sst p st.prev _ st.acc
  · rw [if_neg hlt]

/-- A node never assigned by the whole run keeps its input text. -/
theorem untouched_final (text : Str) (st : MState) (l : List MNode) (p : PrevLevel)
    (h1 : st.prev = .start ∨ p ≠ st.prev) (h2 : p ∉ l.map MNode.path) :
    getText p (finalize text (applySeq text st l)) = getText p st.acc := by
  have hfin : (applySeq text st l).prev = .start ∨ p ≠ (applySeq text st l).prev := by
    rcases applySeq_prev_cases text l st with h | h
    · rw [h]
      exact h1
    · right
      intro hp
      exact h2 (hp ▸ h)
  rw [finalize_untouched text _ p hfin, applySeq_acc_untouched text p l st h1 h2]

/-- The heart of the splitter's invariant: when the match sequence is
`P ++ m :: R` and `m`'s node occurs nowhere else, the node's final text is
exactly the slice from the end of `m`'s own match to the start of the next
match (kept only when it has non-whitespace content), or to the end of the
document when `m` is the last match. -/
theorem applySeq_split (text : Str) (m : MNode) :
    ∀ (P R : List MNode) (st : MState),
      m.path ∉ P.map MNode.path → m.path ∉ R.map MNode.path →
      (st.prev = .start ∨ m.path ≠ st.prev) →
      pathOkB m.path st.acc = true →
      getText m.path (finalize text (applySeq text st (P ++ m :: R))) =
        (match R with
         | [] =>
             if m.e < text.length then some (text.drop m.e) else getText m.path st.acc
         | m1 :: _ =>
             if hasNonWs (pySlice text m.e m1.s) then some (pySlice text m.e m1.s)
             else getText m.path st.acc) := by
  intro P
  induction P with
  | nil =>
      intro R st _ hR hprev hok
      rw [List.nil_append]
      rw [show applySeq text st (m :: R) = applySeq text (applyStep text st m) R from rfl]
      have hacc : getText m.path (applyStep text st m).acc = getText m.path st.acc :=
        applyStep_acc text st m m.path hprev
      have hok1 : pathOkB m.path (applyStep text st m).acc = true := by
        rw [applyStep_pathOk]
        exact hok
      cases R with
      | nil =>
          rw [show applySeq text (applyStep text st m) [] = applyStep text st m from rfl]
          unfold finalize
          by_cases hlt : (applyStep text st m).prevEnd < text.length
          · rw [if_pos hlt]
            have hpe : (applyStep text st m).prevEnd = m.e := rfl
            have hpl : (applyStep text st m).prev = m.path := rfl
            rw [hpe] at hlt
            rw [if_pos hlt, hpl, hpe]
            exact getText_sst_self m.path _ _ hok1
          · rw [if_neg hlt]
            have hpe : (applyStep text st m).prevEnd = m.e := rfl
            rw [hpe] at hlt
            rw [if_neg hlt]
            exact hacc
      | cons m1 R1 =>
          rw [List.map_cons, List.mem_cons, not_or] at hR
          rw [show applySeq text (applyStep text st m) (m1 :: R1)
              = applySeq text (applyStep text (applyStep text st m) m1) R1 from rfl]
          have hun : getText m.path
              (finalize text (applySeq text (applyStep text (applyStep text st m) m1) R1))
              = getText m.path (applyStep text (applyStep text st m) m1).acc := by
            apply untouched_final
            · right
              exact hR.1
            · exact hR.2
          rw [hun]
          simp only [applyStep]
          cases hw : hasNonWs (pySlice text m.e m1.s) with
          | false =>
              have hc : ¬(false = true) := by simp
              rw [if_neg hc, if_neg hc]
              exact hacc
          | true =>
              rw [if_pos rfl, if_pos rfl]
              exact getText_sst_self m.path _ _ hok1
  | cons q P1 ih =>
      intro R st hP hR hprev hok
      rw [List.map_cons, List.mem_cons, not_or] at hP
      rw [List.cons_append,
        show applySeq text st ((q :: (P1 ++ m :: R))) =
          applySeq text (applyStep text st q) (P1 ++ m :: R) from rfl]
      have hstep : getText m.path (applyStep text st q).acc = getText m.path st.acc :=
        applyStep_acc text st q m.path hprev
      have hok1 : pathOkB m.path (applyStep text st q).acc = true := by
        rw [applyStep_pathOk]
        exact hok
      rw [ih R (applyStep text st q) hP.2 hR (Or.inr hP.1) hok1]
      cases R with
      | nil => rw [hstep]
      | cons m1 R1 => rw [hstep]

/-! ## The builder's output has no text fields -/

theorem getText_none_of_all (st : StructT) (h : allTextsNoneB st = true) (q : PrevLevel) :
    getText q st = none := by
  rw [allTextsNoneB, List.all_eq_true] at h
  cases q with
  | start => rfl
  | chapter c =>
      cases hch : odGet c st with
      | none => simp [getText, hch]
      | some ch =>
          have hmem := h _ (odGet_mem hch)
          simp only [Bool.and_eq_true] at hmem
          simp [getText, hch, Option.isNone_iff_eq_none.mp hmem.1]
  | sec c s =>
      cases hch : odGet c st with
      | none => simp [getText, hch]
      | some ch =>
          have hmem := h _ (odGet_mem hch)
          simp only [Bool.and_eq_true, List.all_eq_true] at hmem
          cases hse : odGet s ch.sections with
          | none => simp [getText, hch, hse]
          | some se =>
              have hs := hmem.2 _ (odGet_mem hse)
              simp only [Bool.and_eq_true] at hs
              simp [getText, hch, hse, Option.isNone_iff_eq_none.mp hs.1]
  | sub c s ss =>
      cases hch : odGet c st with
      | none => simp [getText, hch]
      | some ch =>
          have hmem := h _ (odGet_mem hch)
          simp only [Bool.and_eq_true, List.all_eq_true] at hmem
          cases hse : odGet s ch.sections with
          | none => simp [getText, hch, hse]
          | some se =>
              have hs := hmem.2 _ (odGet_mem hse)
              simp only [Bool.and_eq_true, List.all_eq_true] at hs
              cases hsu : odGet ss se.subsections with
              | none => simp [getText, hch, hse, hsu]
              | some su =>
                  have hu := hs.2 _ (odGet_mem hsu)
                  have hu2 : su.text = none := Option.isNone_iff_eq_none.mp hu
                  simp [getText, hch, hse, hsu, hu2]

/-! ## Document decomposition along an in-order match sequence -/

theorem headSpans_decomp (text : Str) (l : List MNode) :
    ∀ pe : Nat, spansChainB text pe l = true →
      pySlice text pe (nextStartD text l) ++ (headSpans text l).flatten = text.drop pe := by
  induction l with
  | nil =>
      intro pe _
      simp [nextStartD, headSpans, pySlice_to_end]
  | cons m r ih =>
      intro pe h
      simp only [spansChainB, Bool.and_eq_true, decide_eq_true_eq] at h
      obtain ⟨⟨h1, h2⟩, h3⟩ := h
      simp only [headSpans, List.flatten_cons]
      have hn : nextStartD text (m :: r) = m.s := rfl
      rw [hn, ih m.e h3, pySlice_glue text h2, pySlice_glue text h1]

/-! ## Whitespace relaxation: what `\s*` accepts -/

theorem tryAll_isSome_of_mem (f : Str → Option Str) (l : List Str) (x : Str)
    (hx : x ∈ l) (h : (f x).isSome = true) : (tryAll f l).isSome = true := by
  induction l with
  | nil => cases hx
  | cons y r ih =>
      simp only [tryAll]
      cases hy : f y with
      | some v => simp
      | none =>
          rcases List.mem_cons.mp hx with rfl | hxr
          · rw [hy] at h
            simp at h
          · exact ih hxr

theorem self_mem_wsSuffixes (s : Str) : s ∈ wsSuffixes s := by
  simp only [wsSuffixes, List.mem_map, List.mem_reverse, List.mem_range]
  exact ⟨0, Nat.succ_pos _, rfl⟩

theorem takeWhile_append_all (p : Char → Bool) (w s : Str) (hw : ∀ c ∈ w, p c = true) :
    (w ++ s).takeWhile p = w ++ s.takeWhile p := by
  induction w with
  | nil => simp
  | cons c r ih =>
      have hc := hw c (List.mem_cons_self _ _)
      simp [List.takeWhile, hc, ih (fun d hd => hw d (List.mem_cons_of_mem _ hd))]

theorem mem_wsSuffixes_append (w s : Str) (hw : ∀ c ∈ w, pyIsSpace c = true) :
    s ∈ wsSuffixes (w ++ s) := by
  simp only [wsSuffixes, List.mem_map, List.mem_reverse, List.mem_range]
  refine ⟨w.length, ?_, ?_⟩
  · rw [takeWhile_append_all pyIsSpace w s hw]
    simp only [List.length_append]
    omega
  · exact List.drop_left w s

theorem reMatch_wsStar_of (ps : List RElem) (s : Str)
    (h : (reMatch ps s).isSome = true) : (reMatch (.wsStar :: ps) s).isSome = true := by
  simp only [reMatch]
  exact tryAll_isSome_of_mem _ _ s (self_mem_wsSuffixes s) h

theorem reMatch_wsStar_append (ps : List RElem) (w s : Str)
    (hw : ∀ c ∈ w, pyIsSpace c = true) (h : (reMatch ps s).isSome = true) :
    (reMatch (.wsStar :: ps) (w ++ s)).isSome = true := by
  simp only [reMatch]
  exact tryAll_isSome_of_mem _ _ s (mem_wsSuffixes_append w s hw) h

theorem reMatch_spRelax (t s : Str) (h : SpRelax t s) :
    (reMatch (prepare_regex t) s).isSome = true := by
  induction h with
  | nil => simp [prepare_regex, reMatch]
  | ch c t1 s1 hc _ ih =>
      have hcc : charMatch c c = true := by simp [charMatch]
      simp only [prepare_regex, List.map_cons, if_neg hc] at *
      simpa [reMatch, hcc] using ih
  | sp w t1 s1 hw _ ih =>
      simp only [prepare_regex, List.map_cons, if_pos rfl] at *
      exact reMatch_wsStar_append _ w s1 hw ih

/-! ## takeWhile / dropWhile facts for the number parser -/

theorem all_takeWhile (p : Char → Bool) (l : Str) : (l.takeWhile p).all p = true := by
  induction l with
  | nil => rfl
  | cons c t ih =>
      by_cases h : p c = true
      · simp [List.takeWhile, h, ih]
      · simp only [Bool.not_eq_true] at h
        simp [List.takeWhile, h]

theorem takeWhile_append_cons (p : Char → Bool) (l : Str) (hall : l.all p = true)
    (b : Char) (hb : p b = false) (r : Str) : (l ++ b :: r).takeWhile p = l := by
  induction l with
  | nil => simp [List.takeWhile, hb]
  | cons c t ih =>
      simp only [List.all_cons, Bool.and_eq_true] at hall
      simp [List.takeWhile, hall.1, ih hall.2]

theorem dropWhile_append_cons (p : Char → Bool) (l : Str) (hall : l.all p = true)
    (b : Char) (hb : p b = false) (r : Str) : (l ++ b :: r).dropWhile p = b :: r := by
  induction l with
  | nil => simp [List.dropWhile, hb]
  | cons c t ih =>
      simp only [List.all_cons, Bool.and_eq_true] at hall
      simp [List.dropWhile, hall.1, ih hall.2]

theorem dropWhile_eq_nil_of_all (p : Char → Bool) (l : Str) (h : l.all p = true) :
    l.dropWhile p = [] := by
  induction l with
  | nil => rfl
  | cons c t ih =>
      simp only [List.all_cons, Bool.and_eq_true] at h
      simp [List.dropWhile, h.1, ih h.2]

theorem is_subsec_not_sec {n : Str} (h : is_subsec n = true) : is_sec n = false := by
  by_contra hn
  simp only [Bool.not_eq_false] at hn
  simp only [is_sec, Bool.and_eq_true] at hn
  have hdrop := dropWhile_eq_nil_of_all isDigitC n hn.2
  simp only [is_subsec, hdrop, Bool.and_eq_true] at h
  exact absurd h.2 (by simp)

theorem is_subsec_ne_nil {n : Str} (h : is_subsec n = true) : n ≠ [] := by
  intro he
  subst he
  simp [is_subsec, List.takeWhile, List.dropWhile] at h

/-! ## Claims -/

/-- C1 counterexample: in `exIn1` the chapter's heading ("Глава 1 Zzz") never
occurs in the text, while the section's own pattern does match the text at
position 0; the claim says the section is still searched and receives its
text, but the `continue` skips the whole chapter body, so the section's text
stays absent. -/
theorem c1_cex :
    (reSearchAnchored (secPat "1".data "B".data) exTx1).isSome = true ∧
    getText (.sec "1".data "1".data) (match_structure exIn1 exTx1) = none := by
  constructor
  · decide
  · decide

/-- C1 (corrected): when a node's heading pattern fails to match, the step
for that node is the identity — the cursor (`prevEnd`), the active node
(`prev`), and every `text` field are unchanged, and the traversal continues
with the next node at the same level; in particular the failed chapter's
sections/subsections (resp. the failed section's subsections) are skipped,
not searched. No exception is possible (the splitter is a total function). -/
theorem c1_amended :
    (∀ (text : Str) (st : MState) (e : Str × ChapNode),
        reSearch (chapterPat e.1 e.2.title) text = none → chapStep text st e = st) ∧
    (∀ (c : Str) (text : Str) (st : MState) (e : Str × SecNode),
        reSearchAnchored (secPat e.1 e.2.title) text = none → secStep c text st e = st) ∧
    (∀ (c s : Str) (text : Str) (st : MState) (e : Str × SubNode),
        reSearchAnchored (secPat e.1 e.2.title) text = none → subStep c s text st e = st) := by
  refine ⟨fun text st e h => ?_, fun c text st e h => ?_, fun c s text st e h => ?_⟩
  · simp [chapStep, h]
  · simp [secStep, h]
  · simp [subStep, h]

/-- C1 witness: the three failure steps evaluated at concrete inputs. -/
theorem c1_witness :
    chapStep "q".data ⟨0, .start, []⟩ ("1".data, ⟨"Z".data, [], none⟩) = ⟨0, .start, []⟩ ∧
    secStep "1".data "q".data ⟨0, .start, []⟩ ("1".data, ⟨"B".data, [], none⟩) =
      ⟨0, .start, []⟩ ∧
    subStep "1".data "1".data "q".data ⟨0, .start, []⟩ ("1.1".data, ⟨"C".data, none⟩) =
      ⟨0, .start, []⟩ :=
  ⟨c1_amended.1 _ _ _ (by decide),
   c1_amended.2.1 _ _ _ _ (by decide),
   c1_amended.2.2 _ _ _ _ _ (by decide)⟩

/-- C2 (code bug): the section pattern is built with `^` but `re.search` is
called without `re.MULTILINE`, so it can only match at the start of the whole
text.  In `exTx2` the heading "1 First" starts the second line (the newline
sits at index 9, the heading at index 10) and the pattern does match there,
yet the search returns no match. -/
theorem c2_code_bug :
    reSearchAnchored (secPat "1".data "First".data) exTx2 = none ∧
    exTx2.get? 9 = some '\n' ∧
    (reMatch (secPat "1".data "First".data) (exTx2.drop 10)).isSome = true := by
  refine ⟨by decide, by decide, by decide⟩

/-- C3 counterexample: `_prepare_regex` relaxes only escaped *spaces*; a tab
inside the title stays a literal, so the produced pattern differs from the
spec's "relax every contiguous whitespace run" pattern and fails on a
document where the words are separated by a space instead of the tab, while
the spec's pattern does match it. -/
theorem c3_cex :
    prepare_regex "a\tb".data ≠ specRelaxAllWs "a\tb".data ∧
    reMatch (prepare_regex "a\tb".data) "a b".data = none ∧
    (reMatch (specRelaxAllWs "a\tb".data) "a b".data).isSome = true := by
  refine ⟨by decide, by decide, by decide⟩

/-- C3 (corrected): only space characters are relaxed.  For every title and
every text obtained from it by replacing each *space* with an arbitrary run
of whitespace (line wraps included), the compiled pattern still matches. -/
theorem c3_amended (t s : Str) (h : SpRelax t s) :
    (reMatch (prepare_regex t) s).isSome = true :=
  reMatch_spRelax t s h

/-- C3 witness: the title "a b" matched against "a \n b". -/
theorem c3_witness : (reMatch (prepare_regex "a b".data) "a \n b".data).isSome = true := by
  apply c3_amended
  show SpRelax ['a', ' ', 'b'] ['a', ' ', '\n', ' ', 'b']
  have h1 : SpRelax ['b'] ['b'] := SpRelax.ch 'b' [] [] (by decide) SpRelax.nil
  have h2 : SpRelax [' ', 'b'] ([' ', '\n', ' '] ++ ['b']) :=
    SpRelax.sp [' ', '\n', ' '] ['b'] ['b'] (by decide) h1
  exact SpRelax.ch 'a' [' ', 'b'] ([' ', '\n', ' '] ++ ['b']) (by decide) h2

/-- C4 counterexample: on the empty document no heading matches, and the
chapter node of the result carries *no* `text` field at all (`none`), not a
`text` field equal to the empty string. -/
theorem c4_cex :
    pathOkB (.chapter "1".data) (processBook exToc4 []) = true ∧
    getText (.chapter "1".data) (processBook exToc4 []) = none ∧
    getText (.chapter "1".data) (processBook exToc4 []) ≠ some [] := by
  refine ⟨by decide, by decide, by decide⟩

/-- C4 (corrected): the splitter never touches `title` fields, and a node
whose heading never matched during the run keeps its input `text` field —
absent (`none`) for the builder's output — rather than being set to the
empty string. -/
theorem c4_amended (input : StructT) (text : Str) (p q : PrevLevel)
    (hp : p ∉ (matchedSeq input text).map MNode.path) :
    getTitle q (match_structure input text) = getTitle q input ∧
    getText p (match_structure input text) = getText p input := by
  constructor
  · rw [match_structure_flat, finalize_title, applySeq_title]
  · rw [match_structure_flat]
    exact untouched_final text ⟨0, .start, input⟩ (matchedSeq input text) p (Or.inl rfl) hp

/-- C4 witness: the empty-document run evaluated on a concrete outline. -/
theorem c4_witness :
    getTitle (.chapter "1".data) (match_structure (extract_structure exToc4) []) =
      getTitle (.chapter "1".data) (extract_structure exToc4) ∧
    getText (.chapter "1".data) (match_structure (extract_structure exToc4) []) =
      getText (.chapter "1".data) (extract_structure exToc4) :=
  c4_amended _ _ _ _ (by decide)

/-- C5 (confirmed): whenever a node of the tree ends up with a `text` value
`v`, the match sequence splits as `P ++ m :: R` with `m` the node's own
successful match, and `v` is exactly the slice of the document from the end
of `m` to the start of the next successful match (`R`'s head), or to the end
of the document when `m` was the last match — no trimming, insertion or
omission. -/
theorem c5_confirmed (input : StructT) (text : Str) (p : PrevLevel) (v : Str)
    (hall : allTextsNoneB input = true)
    (hok : pathOkB p input = true)
    (hnd : ((matchedSeq input text).map MNode.path).Nodup)
    (hv : getText p (match_structure input text) = some v) :
    ∃ P m R, matchedSeq input text = P ++ m :: R ∧ m.path = p ∧
      v = pySlice text m.e (nextStartD text R) := by
  rw [match_structure_flat] at hv
  by_cases hin : p ∈ (matchedSeq input text).map MNode.path
  · obtain ⟨m, hm, hmp⟩ := List.mem_map.mp hin
    subst hmp
    obtain ⟨P, R, hPR⟩ := List.append_of_mem hm
    have hnd2 := hnd
    rw [hPR, List.map_append, List.map_cons, List.nodup_append] at hnd2
    obtain ⟨hnP, hnMR, hdisj⟩ := hnd2
    have hnotR : m.path ∉ R.map MNode.path := (List.nodup_cons.mp hnMR).1
    have hnotP : m.path ∉ P.map MNode.path := fun hmem =>
      hdisj hmem (List.mem_cons_self _ _)
    have hokm : pathOkB m.path ((⟨0, .start, input⟩ : MState).acc) = true := hok
    have hsplit := applySeq_split text m P R ⟨0, .start, input⟩ hnotP hnotR (Or.inl rfl) hokm
    rw [hPR] at hv
    rw [hsplit] at hv
    refine ⟨P, m, R, hPR, rfl, ?_⟩
    have hnone : getText m.path input = none := getText_none_of_all input hall m.path
    cases R with
    | nil =>
        have hv2 : (if m.e < text.length then some (text.drop m.e)
            else getText m.path input) = some v := hv
        by_cases hlt : m.e < text.length
        · rw [if_pos hlt] at hv2
          have hv3 := Option.some.inj hv2
          show v = pySlice text m.e text.length
          rw [pySlice_to_end]
          exact hv3.symm
        · rw [if_neg hlt, hnone] at hv2
          exact absurd hv2 (by simp)
    | cons m1 R1 =>
        have hv2 : (if hasNonWs (pySlice text m.e m1.s) = true then
            some (pySlice text m.e m1.s) else getText m.path input) = some v := hv
        by_cases hw : hasNonWs (pySlice text m.e m1.s) = true
        · rw [if_pos hw] at hv2
          have hv3 := Option.some.inj hv2
          show v = pySlice text m.e m1.s
          exact hv3.symm
        · rw [if_neg hw, hnone] at hv2
          exact absurd hv2 (by simp)
  · rw [untouched_final text ⟨0, .start, input⟩ (matchedSeq input text) p (Or.inl rfl) hin] at hv
    have hvi : getText p input = some v := hv
    rw [getText_none_of_all input hall p] at hvi
    exact absurd hvi (by simp)

/-- C5 witness: a one-chapter document; the chapter's text is the tail after
its heading match. -/
theorem c5_witness :
    ∃ P m R, matchedSeq (extract_structure exToc4) exTx5 = P ++ m :: R ∧
      m.path = PrevLevel.chapter "1".data ∧
      " tail".data = pySlice exTx5 m.e (nextStartD exTx5 R) :=
  c5_confirmed _ _ _ _ (by decide) (by decide) (by decide) (by decide)

/-- C6 counterexample: both chapters of `exIn6` match, in order, with an
empty preamble, and both assigned spans are kept — yet concatenating the
assigned spans does not reproduce the document: the matched headings
themselves belong to no span. -/
theorem c6_cex :
    getText (.chapter "1".data) (match_structure exIn6 exTx6) = some " x ".data ∧
    getText (.chapter "2".data) (match_structure exIn6 exTx6) = some " y".data ∧
    spansChainB exTx6 0 (matchedSeq exIn6 exTx6) = true ∧
    (matchedSeq exIn6 exTx6).length = 2 ∧
    pySlice exTx6 0 (nextStartD exTx6 (matchedSeq exIn6 exTx6)) = [] ∧
    " x ".data ++ " y".data ≠ exTx6 := by
  refine ⟨by decide, by decide, by decide, by decide, by decide, by decide⟩

/-- C6 (corrected): when the successful matches occur in outline order, the
preamble followed by, for each matched node in turn, its matched heading text
and then the span reaching to the next match (or to the end of the
document), concatenates to the document exactly.  The spans between matches
are what get assigned to nodes (when they contain non-whitespace); the
preamble and the matched heading texts belong to no node. -/
theorem c6_amended (input : StructT) (text : Str)
    (h : spansChainB text 0 (matchedSeq input text) = true) :
    pySlice text 0 (nextStartD text (matchedSeq input text)) ++
      (headSpans text (matchedSeq input text)).flatten = text := by
  have hd := headSpans_decomp text (matchedSeq input text) 0 h
  simpa using hd

/-- C6 witness: the decomposition evaluated on the two-chapter document. -/
theorem c6_witness :
    pySlice exTx6 0 (nextStartD exTx6 (matchedSeq exIn6 exTx6)) ++
      (headSpans exTx6 (matchedSeq exIn6 exTx6)).flatten = exTx6 :=
  c6_amended exIn6 exTx6 (by decide)

/-- C7 counterexample: the raw title "2.1.3 Foo" is not rejected: the parser
reads the number "2.1" (title "3 Foo") and the builder attaches it as a
subsection of the active section. -/
theorem c7_cex :
    parse_section "2.1.3 Foo".data = ("2.1".data, "3 Foo".data) ∧
    extract_structure exToc7 =
      [("1".data, ⟨"A".data,
        [("1".data, ⟨"B".data, [("2.1".data, ⟨"3 Foo".data, none⟩)], none⟩)], none⟩)] := by
  refine ⟨by decide, by decide⟩

/-- C7 (corrected): the number produced by `_parse_section` always matches
`\d+` or `\d+\.\d+` (or is empty when the title does not start with a
digit); the "anything else → discard with a diagnostic" branch is
unreachable, and no diagnostic exists in the builder. -/
theorem c7_amended (t : Str) :
    (parse_section t).1 = [] ∨ is_sec (parse_section t).1 = true ∨
      is_subsec (parse_section t).1 = true := by
  unfold parse_section
  dsimp only
  split
  · left
    rfl
  · next hne =>
      simp only [Bool.not_eq_true] at hne
      right
      split
      · next r2 heq =>
          split
          · left
            simp [is_sec, hne, all_takeWhile]
          · next hd2 =>
              simp only [Bool.not_eq_true] at hd2
              right
              have e1 := takeWhile_append_cons isDigitC (t.takeWhile isDigitC)
                (all_takeWhile _ _) '.' (by decide) (r2.takeWhile isDigitC)
              have e2 := dropWhile_append_cons isDigitC (t.takeWhile isDigitC)
                (all_takeWhile _ _) '.' (by decide) (r2.takeWhile isDigitC)
              simp [is_subsec, e1, e2, hne, hd2, all_takeWhile]
      · left
        simp [is_sec, hne, all_takeWhile]

/-- C8 counterexample: the depth-1 entry "Intro" has no leading integer; no
chapter is created for it at all (the result contains only the chapter from
the second entry), instead of a chapter titled from the next entry. -/
theorem c8_cex :
    parse_chapter "Intro".data = ([], "Intro".data) ∧
    extract_structure exToc8 = [("1".data, ⟨"Next".data, [], none⟩)] := by
  refine ⟨by decide, by decide⟩

/-- C8 (corrected): a depth-1 entry with no leading integer is discarded
(the builder state is unchanged); the borrow-from-the-next-entry fallback
applies when a leading integer *is* found but the remaining title is empty:
the chapter is created and its title taken from the entry following this one
in the toc (cleaned), or left empty when there is no next entry. -/
theorem c8_amended :
    (∀ (toc : List TocEntry) (st : BState) (t : Str) (pg : Nat),
        (parse_chapter t).1 = [] → buildStep toc st (1, t, pg) = st) ∧
    (∀ (toc : List TocEntry) (st : BState) (t : Str) (pg : Nat) (n : Str),
        parse_chapter t = (n, []) → n ≠ [] →
        buildStep toc st (1, t, pg) =
          ⟨odSet n ⟨tocNextTitle toc (1, t, pg), [], none⟩ st.struct, some n, st.curSec⟩) := by
  constructor
  · intro toc st t pg h
    simp [buildStep, h]
  · intro toc st t pg n h hn
    simp [buildStep, h, hn, odUpdate_odSet]

/-- C8 witness: the no-integer entry "Intro" is discarded; the entry
"Глава 3" (integer, empty title) takes the next entry's title "1 X". -/
theorem c8_witness :
    buildStep exToc8 ⟨[], none, none⟩ (1, "Intro".data, 1) = ⟨[], none, none⟩ ∧
    buildStep exTocG ⟨[], none, none⟩ (1, "Глава 3".data, 1) =
      ⟨[("3".data, ⟨"1 X".data, [], none⟩)], some "3".data, none⟩ := by
  constructor
  · exact c8_amended.1 _ _ _ _ (by decide)
  · have h := c8_amended.2 exTocG ⟨[], none, none⟩ "Глава 3".data 1 "3".data
      (by decide) (by decide)
    rw [h]
    decide

/-- C9 counterexample: a subsection entry "1.1 B" arriving while a chapter
is active but no section has ever been current is discarded — the chapter
ends up with no sections at all, not with an implicit empty-titled one. -/
theorem c9_cex :
    is_subsec (parse_section "1.1 B".data).1 = true ∧
    extract_structure exToc9 = [("1".data, ⟨"A".data, [], none⟩)] := by
  refine ⟨by decide, by decide⟩

/-- C9 (corrected): a subsection entry is kept only when `current_section`
is set (possibly left over from an earlier chapter).  When it is unset the
entry is discarded.  When it is set but names a section missing from the
active chapter, an implicit section with that number and an empty title is
appended and the subsection attached to it. -/
theorem c9_amended :
    (∀ (toc : List TocEntry) (st : BState) (l : Nat) (t : Str) (pg : Nat) (c n ttl : Str),
        (l = 2 ∨ l = 3) → st.curCh = some c → st.curSec = none →
        parse_section t = (n, ttl) → is_subsec n = true →
        buildStep toc st (l, t, pg) = st) ∧
    (∀ (toc : List TocEntry) (st : BState) (l : Nat) (t : Str) (pg : Nat)
        (c s n ttl : Str) (ch : ChapNode),
        (l = 2 ∨ l = 3) → st.curCh = some c → st.curSec = some s →
        odGet c st.struct = some ch → odContains s ch.sections = false →
        parse_section t = (n, ttl) → is_subsec n = true →
        buildStep toc st (l, t, pg) =
          ⟨odSet c { ch with sections :=
              ch.sections ++ [(s, ⟨[], [(n, ⟨ttl, none⟩)], none⟩)] } st.struct,
            st.curCh, st.curSec⟩) := by
  constructor
  · intro toc st l t pg c n ttl hl hc hs hp hsub
    have hsec := is_subsec_not_sec hsub
    have hnn := is_subsec_ne_nil hsub
    rcases hl with rfl | rfl <;>
      simp [buildStep, hc, hs, hp, hsub, hsec, hnn]
  · intro toc st l t pg c s n ttl ch hl hc hs hg hncont hp hsub
    have hsec := is_subsec_not_sec hsub
    have hnn := is_subsec_ne_nil hsub
    have hcont : odContains c st.struct = true := by simp [odContains, hg]
    have hif : ¬(odContains s ch.sections = true) := by simp [hncont]
    rcases hl with rfl | rfl <;>
    · simp [buildStep, hc, hs, hp, hsub, hsec, hnn, hcont]
      rw [odUpdate_eq_of_get hg, if_neg hif, odSet_of_not_contains hncont,
        odUpdate_append_single hncont]
      simp [odSet]

/-- C9 witness: the discard case, and the implicit-section case with a stale
`current_section` from an earlier chapter. -/
theorem c9_witness :
    buildStep exToc9 ⟨[("1".data, ⟨"A".data, [], none⟩)], some "1".data, none⟩
        (2, "1.1 B".data, 2) =
      ⟨[("1".data, ⟨"A".data, [], none⟩)], some "1".data, none⟩ ∧
    buildStep exToc9 ⟨[("2".data, ⟨"C".data, [], none⟩)], some "2".data, some "1".data⟩
        (2, "2.1 D".data, 5) =
      ⟨[("2".data, ⟨"C".data,
          [("1".data, ⟨[], [("2.1".data, ⟨"D".data, none⟩)], none⟩)], none⟩)],
        some "2".data, some "1".data⟩ := by
  constructor
  · exact c9_amended.1 _ _ 2 _ _ "1".data "1.1".data "B".data (Or.inl rfl)
      (by decide) (by decide) (by decide) (by decide)
  · have h := c9_amended.2 exToc9
      ⟨[("2".data, ⟨"C".data, [], none⟩)], some "2".data, some "1".data⟩
      2 "2.1 D".data 5 "2".data "1".data "2.1".data "D".data ⟨"C".data, [], none⟩
      (Or.inl rfl) (by decide) (by decide) (by decide) (by decide) (by decide) (by decide)
    rw [h]
    decide

/-- C10 (confirmed): the number is interpolated unescaped, so the dot in
"2.1" compiles to the any-character element; the text "201 Foo x" contains
no literal occurrence of "2.1" and yet the subsection's compiled pattern
matches it (at the start of its first line). -/
theorem c10_confirmed :
    numPat "2.1".data = [.lit '2', .anyChar, .lit '1'] ∧
    (reSearchAnchored (secPat "2.1".data "Foo".data) "201 Foo x".data).isSome = true ∧
    containsSeq "2.1".data "201 Foo x".data = false := by
  refine ⟨by decide, by decide, by decide⟩

end PDFX
